import Mathlib

/-!
Verification of the clog canonical-logging package (canonical.go and its
HTTP middleware) against its natural-language specification.

The store attached to a context is a wk8 ordered map from string keys to
values that are Go strings, ints, float64s, or nested ordered maps.  We
embed it as an association list in insertion order: the wk8 ordered map's
Set updates an existing key in place (preserving its position) and appends
a fresh key at the end, and Get returns the value of the first (unique)
matching entry.  Go panics (the failed type assertions in set/add when a
path descends through a scalar) are modelled by Option: none is a panic.

Modelling seams, stated once here:
* Go int is 64-bit; Int arithmetic is wrapped with wrap64 where the code
  adds.
* Go float64 is modelled by Rat: the claims under verification concern the
  kind dispatch of the accessors, not IEEE rounding; addition of float64
  is modelled by exact Rat addition.
* Go strings.ToLower is modelled per character by Char.toLower (they agree
  on ASCII keys, the domain of every test and example in the repository).
* encoding/json's float rendering is modelled abstractly by the Rat
  representation; string escaping follows encoding/json's default
  (HTML-escaping) encoder.
-/

namespace Clog

/-- A value stored in the canonical logging context: Go `any` restricted to
what the package actually stores, i.e. `string`, `int`, `float64`, or a
nested `*orderedmap.OrderedMap[string, any]`. -/
inductive Value where
  | vStr (s : String)
  | vInt (n : Int)
  | vFloat (q : Rat)
  | vNode (m : List (String × Value))

/-- One level of the store: a wk8 ordered map, embedded as an association
list in insertion order. -/
abbrev Node := List (String × Value)

/-- wk8 orderedmap `Get`: value of the entry with the given key, if any. -/
def omGet (m : Node) (k : String) : Option Value :=
  match m with
  | [] => none
  | (k1, v1) :: rest => if k1 = k then some v1 else omGet rest k

/-- wk8 orderedmap `Set`: update an existing key in place (keeping its
position), or append a new entry at the end. -/
def omSet (m : Node) (k : String) (v : Value) : Node :=
  match m with
  | [] => [(k, v)]
  | (k1, v1) :: rest => if k1 = k then (k, v) :: rest else (k1, v1) :: omSet rest k v

/-- Split a character list on a separator character, as Go
`strings.Split` does for a one-character separator: always returns at
least one (possibly empty) group. -/
def splitOnChar (sep : Char) : List Char → List (List Char)
  | [] => [[]]
  | c :: cs =>
    if c = sep then [] :: splitOnChar sep cs
    else
      match splitOnChar sep cs with
      | [] => [[c]]
      | g :: gs => (c :: g) :: gs

/-- `canonical.normalizeKey`: lower-case the key and split it on dots
(`strings.Split(strings.ToLower(key), ".")`). -/
def normalizeKey (key : String) : List String :=
  (splitOnChar '.' (key.data.map Char.toLower)).map List.asString

/-- Go 64-bit signed integer addition result for a mathematical integer:
reduce into the interval `[-2^63, 2^63)`. -/
def wrap64 (n : Int) : Int := (n + 2 ^ 63) % 2 ^ 64 - 2 ^ 63

/-- `canonical.set`: walk the path, creating empty intermediate maps for
absent segments, and unconditionally overwrite the final segment.  The
type assertion `val.(*orderedmap.OrderedMap[string, any])` panics when an
intermediate segment holds a scalar; `none` models that panic. -/
def set (parts : List String) (state : Node) (value : Value) : Option Node :=
  match parts with
  | [] => none
  | [p] => some (omSet state p value)
  | p :: ps =>
    match omGet state p with
    | none => (set ps [] value).map fun sub => omSet state p (.vNode sub)
    | some (.vNode sub) => (set ps sub value).map fun sub2 => omSet state p (.vNode sub2)
    | some _ => none

/-- `canonical.add`: like `set` on intermediate segments; at the leaf,
store the delta if the key is absent, add (with Go int overflow) if it
holds an int, and silently keep the state unchanged otherwise. -/
def add (parts : List String) (state : Node) (value : Int) : Option Node :=
  match parts with
  | [] => none
  | [p] =>
    match omGet state p with
    | none => some (omSet state p (.vInt value))
    | some (.vInt vv) => some (omSet state p (.vInt (wrap64 (vv + value))))
    | some _ => some state
  | p :: ps =>
    match omGet state p with
    | none => (add ps [] value).map fun sub => omSet state p (.vNode sub)
    | some (.vNode sub) => (add ps sub value).map fun sub2 => omSet state p (.vNode sub2)
    | some _ => none

/-- `canonical.addFloat`: the float64 counterpart of `add` (float64
modelled by Rat). -/
def addFloat (parts : List String) (state : Node) (value : Rat) : Option Node :=
  match parts with
  | [] => none
  | [p] =>
    match omGet state p with
    | none => some (omSet state p (.vFloat value))
    | some (.vFloat vv) => some (omSet state p (.vFloat (vv + value)))
    | some _ => some state
  | p :: ps =>
    match omGet state p with
    | none => (addFloat ps [] value).map fun sub => omSet state p (.vNode sub)
    | some (.vNode sub) => (addFloat ps sub value).map fun sub2 => omSet state p (.vNode sub2)
    | some _ => none

/-- One hexadecimal digit. -/
def hexDigit (n : Nat) : Char :=
  if n < 10 then Char.ofNat (48 + n) else Char.ofNat (87 + n)

/-- encoding/json escaping of one character inside a JSON string, with the
default encoder's HTML escaping of angle brackets and ampersand. -/
def escapeChar (c : Char) : String :=
  if c = '"' then "\\\""
  else if c = '\\' then "\\\\"
  else if c = '\n' then "\\n"
  else if c = '\r' then "\\r"
  else if c = '\t' then "\\t"
  else if c = '<' then "\\u003c"
  else if c = '>' then "\\u003e"
  else if c = '&' then "\\u0026"
  else if c.toNat < 32 then
    "\\u00" ++ String.mk [hexDigit (c.toNat / 16), hexDigit (c.toNat % 16)]
  else String.singleton c

/-- A JSON string literal for the given text. -/
def renderString (s : String) : String :=
  "\"" ++ String.join (s.data.map escapeChar) ++ "\""

mutual

/-- JSON rendering of one stored value, as `json.Marshal` renders the
entries of the wk8 ordered map. -/
def renderValue : Value → String
  | .vStr s => renderString s
  | .vInt n => toString n
  | .vFloat q => toString q
  | .vNode t => "\x7b" ++ renderEntries t ++ "\x7d"

/-- JSON rendering of the comma-separated entries of one map level, in
insertion order. -/
def renderEntries : List (String × Value) → String
  | [] => ""
  | [(k, v)] => renderString k ++ ":" ++ renderValue v
  | (k, v) :: rest => renderString k ++ ":" ++ renderValue v ++ "," ++ renderEntries rest

end

/-- `canonical.string`: `json.Marshal(c.values)` — the store rendered as
one JSON object. -/
def string (t : Node) : String := "\x7b" ++ renderEntries t ++ "\x7d"

/-- The carrier (`context.Context`) as the package observes it: either no
canonical store is attached (`ctx.Value(contextKey)` is not a
`*canonical`) or one is, with the given contents. -/
structure Ctx where
  store : Option Node

/-- `Init`: attach a freshly constructed empty store if none is attached,
otherwise return the carrier unchanged. -/
def Init (c : Ctx) : Ctx :=
  match c.store with
  | none => ⟨some []⟩
  | some _ => c

/-- `MarshalJSON`: render the attached store, or return the empty string
if none is attached. -/
def MarshalJSON (c : Ctx) : String :=
  match c.store with
  | none => ""
  | some t => string t

/-- `SetString`: no-op if no store is attached, otherwise
`c.set(normalizeKey(key), c.values, value)`. -/
def SetString (c : Ctx) (key value : String) : Option Ctx :=
  match c.store with
  | none => some c
  | some t => (set (normalizeKey key) t (.vStr value)).map fun u => ⟨some u⟩

/-- `SetInt`: no-op if no store is attached. -/
def SetInt (c : Ctx) (key : String) (value : Int) : Option Ctx :=
  match c.store with
  | none => some c
  | some t => (set (normalizeKey key) t (.vInt value)).map fun u => ⟨some u⟩

/-- `SetFloat64`: no-op if no store is attached. -/
def SetFloat64 (c : Ctx) (key : String) (value : Rat) : Option Ctx :=
  match c.store with
  | none => some c
  | some t => (set (normalizeKey key) t (.vFloat value)).map fun u => ⟨some u⟩

/-- `AddInt`: no-op if no store is attached. -/
def AddInt (c : Ctx) (key : String) (value : Int) : Option Ctx :=
  match c.store with
  | none => some c
  | some t => (add (normalizeKey key) t value).map fun u => ⟨some u⟩

/-- `AddFloat64`: no-op if no store is attached. -/
def AddFloat64 (c : Ctx) (key : String) (value : Rat) : Option Ctx :=
  match c.store with
  | none => some c
  | some t => (addFloat (normalizeKey key) t value).map fun u => ⟨some u⟩

/-- A scalar argument of one of the three Set accessors. -/
inductive SVal where
  | s (x : String)
  | i (x : Int)
  | f (x : Rat)

instance : Inhabited SVal := ⟨.i 0⟩

instance : Inhabited Value := ⟨.vInt 0⟩

/-- The stored value of a Set argument. -/
def SVal.toValue : SVal → Value
  | .s x => .vStr x
  | .i x => .vInt x
  | .f x => .vFloat x

/-- Dispatch one Set call by the kind of its argument. -/
def setOp (c : Ctx) (key : String) : SVal → Option Ctx
  | .s x => SetString c key x
  | .i x => SetInt c key x
  | .f x => SetFloat64 c key x

/-- Run a sequence of Set calls on a carrier. -/
def runSets (c : Ctx) : List (String × SVal) → Option Ctx
  | [] => some c
  | (k, v) :: rest => (setOp c k v).bind fun c2 => runSets c2 rest

/-! ## Specification-side definitions

These follow the spec's words and are compared with the embedded code:
path lookup, the walk condition, and the canonical grouped shape that §3
and §8 of the spec describe for a sequence of Set calls. -/

/-- The value stored at an exact (already normalized) key path, descending
only through nested Nodes. -/
def lookupPath (t : Node) : List String → Option Value
  | [] => none
  | [p] => omGet t p
  | p :: ps =>
    match omGet t p with
    | some (.vNode sub) => lookupPath sub ps
    | _ => none

/-- The walk condition of §4.2/§4.3: every intermediate (non-final)
segment of the path holds a Node or is absent. -/
def walkOkB : List String → Node → Bool
  | [], _ => true
  | [_], _ => true
  | p :: ps, t =>
    match omGet t p with
    | none => true
    | some (.vNode sub) => walkOkB ps sub
    | some _ => false

/-- The nested chain of singleton Nodes that a dotted path denotes when
built in an empty store: `a.b.c ↦ x` is `{a: {b: {c: x}}}`. -/
def nestChain : List String → Value → Node
  | [], _ => []
  | [p], v => [(p, v)]
  | p :: ps, v => [(p, .vNode (nestChain ps v))]

/-- Boolean segment-list version of "is a path prefix of". -/
def isPre : List String → List String → Bool
  | [], _ => true
  | _ :: _, [] => false
  | x :: xs, y :: ys => x == y && isPre xs ys

/-- Group of operations under one root key: the ops whose path starts with
that key, with the leading segment removed. -/
def subOps (g : List (List String × SVal)) (k : String) : List (List String × SVal) :=
  g.filterMap fun p =>
    match p.1 with
    | [] => none
    | h :: rest => if h = k then some (rest, p.2) else none

/-- The first segment of every op's path, in op order. -/
def heads (g : List (List String × SVal)) : List String :=
  g.filterMap fun p => p.1.head?

/-- Deduplication keeping the first occurrence of each element. -/
def dedupFAux (seen : List String) : List String → List String
  | [] => []
  | x :: xs => if x ∈ seen then dedupFAux seen xs else x :: dedupFAux (x :: seen) xs

/-- Deduplication keeping the first occurrence of each element. -/
def dedupF (l : List String) : List String := dedupFAux [] l

/-- Does a Set argument compare equal to a stored value? -/
def svalEqValue (sv : SVal) (w : Value) : Bool :=
  match sv, w with
  | .s a, .vStr b => decide (a = b)
  | .i a, .vInt b => decide (a = b)
  | .f a, .vFloat b => decide (a = b)
  | _, _ => false

/-- A scalar leaf accounts for exactly one op, whose remaining path is
empty and whose argument equals the stored value. -/
def scalarGroup (g : List (List String × SVal)) (w : Value) : Bool :=
  match g with
  | [([], sv)] => svalEqValue sv w
  | _ => false

/-- No op at this level has run out of path segments. -/
def segsOk (g : List (List String × SVal)) : Bool :=
  g.all fun p => decide (p.1 ≠ [])

mutual

/-- §3/§8: the stored value at one key matches the group of Set ops under
that key — a scalar is exactly one op's last-set value; a Node's keys are
the first-occurrence-ordered first segments of its group, each matching
recursively. -/
def valueMatches (g : List (List String × SVal)) : Value → Bool
  | .vStr s => scalarGroup g (.vStr s)
  | .vInt n => scalarGroup g (.vInt n)
  | .vFloat q => scalarGroup g (.vFloat q)
  | .vNode sub =>
      segsOk g && decide (sub.map Prod.fst = dedupF (heads g)) && entriesMatch g sub

/-- Each entry of one map level matches its group of ops. -/
def entriesMatch (g : List (List String × SVal)) : List (String × Value) → Bool
  | [] => true
  | (k, v) :: rest => valueMatches (subOps g k) v && entriesMatch g rest

end

/-- A whole store matches a list of (normalized-path, value) Set ops:
exactly those keys, with their last-set values, keys at each level in
first-insertion order. -/
def nodeMatches (g : List (List String × SVal)) (t : Node) : Bool :=
  valueMatches g (.vNode t)

/-- A Set-call list with its keys normalized. -/
def normOps (ops : List (String × SVal)) : List (List String × SVal) :=
  ops.map fun o => (normalizeKey o.1, o.2)

/-- Value-kind discriminator: is this stored value an int? -/
def Value.isInt : Value → Bool
  | .vInt _ => true
  | _ => false

/-- Value-kind discriminator: is this stored value a float? -/
def Value.isFloat : Value → Bool
  | .vFloat _ => true
  | _ => false

/-- Value-kind discriminator: is this stored value a nested Node? -/
def Value.isNode : Value → Bool
  | .vNode _ => true
  | _ => false

/-! ## Ordered-map lemmas -/

theorem omGet_omSet_self (t : Node) (k : String) (v : Value) :
    omGet (omSet t k v) k = some v := by
  induction t with
  | nil => simp [omGet, omSet]
  | cons hd rest ih =>
    obtain ⟨k1, v1⟩ := hd
    by_cases h : k1 = k <;> simp [omGet, omSet, h, ih]

theorem omGet_omSet_ne (t : Node) (k k2 : String) (v : Value) (h : k2 ≠ k) :
    omGet (omSet t k v) k2 = omGet t k2 := by
  induction t with
  | nil => simp [omGet, omSet, Ne.symm h]
  | cons hd rest ih =>
    obtain ⟨k1, v1⟩ := hd
    by_cases h1 : k1 = k
    · subst h1
      simp [omGet, omSet, Ne.symm h]
    · by_cases h2 : k1 = k2 <;> simp [omGet, omSet, h1, h2, ih, h]

theorem omSet_of_omGet_eq (t : Node) (k : String) (v : Value)
    (h : omGet t k = some v) : omSet t k v = t := by
  induction t with
  | nil => simp [omGet] at h
  | cons hd rest ih =>
    obtain ⟨k1, v1⟩ := hd
    by_cases h1 : k1 = k
    · subst h1
      simp [omGet] at h
      simp [omSet, h]
    · simp [omGet, h1] at h
      simp [omSet, h1, ih h]

theorem omSet_of_omGet_none (t : Node) (k : String) (v : Value)
    (h : omGet t k = none) : omSet t k v = t ++ [(k, v)] := by
  induction t with
  | nil => simp [omSet]
  | cons hd rest ih =>
    obtain ⟨k1, v1⟩ := hd
    by_cases h1 : k1 = k
    · simp [omGet, h1] at h
    · simp [omGet, h1] at h
      simp [omSet, h1, ih h]

theorem omGet_eq_none_iff (t : Node) (k : String) :
    omGet t k = none ↔ k ∉ t.map Prod.fst := by
  induction t with
  | nil => simp [omGet]
  | cons hd rest ih =>
    obtain ⟨k1, v1⟩ := hd
    by_cases h1 : k1 = k
    · simp [omGet, h1]
    · simp [omGet, h1, ih, Ne.symm h1]

theorem omGet_isSome_of_mem (t : Node) (k : String) (h : k ∈ t.map Prod.fst) :
    ∃ w, omGet t k = some w := by
  rcases hg : omGet t k with _ | w
  · exact absurd ((omGet_eq_none_iff t k).mp hg) (by simpa using h)
  · exact ⟨w, rfl⟩

theorem omSet_map_fst_of_mem (t : Node) (k : String) (v : Value)
    (h : k ∈ t.map Prod.fst) :
    (omSet t k v).map Prod.fst = t.map Prod.fst := by
  induction t with
  | nil => simp at h
  | cons hd rest ih =>
    obtain ⟨k1, v1⟩ := hd
    by_cases h1 : k1 = k
    · subst h1; simp [omSet]
    · have h2 : k = k1 ∨ k ∈ rest.map Prod.fst := by
        simpa only [List.map_cons, List.mem_cons] using h
      have hmem : k ∈ rest.map Prod.fst := by
        rcases h2 with h2 | h2
        · exact absurd h2.symm h1
        · exact h2
      simp [omSet, h1, ih hmem]

/-! ## Path-walk lemmas for `set` -/

theorem set_nil_eq_nestChain (parts : List String) (v : Value) (h : parts ≠ []) :
    set parts [] v = some (nestChain parts v) := by
  induction parts with
  | nil => exact absurd rfl h
  | cons p ps ih =>
    cases ps with
    | nil => simp [set, nestChain, omSet]
    | cons q qs =>
      simp only [set, omGet]
      rw [ih (by simp)]
      simp [nestChain, omSet]

theorem lookupPath_nil (parts : List String) : lookupPath [] parts = none := by
  cases parts with
  | nil => rfl
  | cons p ps => cases ps <;> simp [lookupPath, omGet]

theorem walkOkB_nil (parts : List String) : walkOkB parts [] = true := by
  cases parts with
  | nil => rfl
  | cons p ps => cases ps <;> simp [walkOkB, omGet]

theorem set_lookupPath (parts : List String) :
    ∀ (t u : Node) (v : Value), set parts t v = some u →
      lookupPath u parts = some v := by
  induction parts with
  | nil => intro t u v h; simp [set] at h
  | cons p ps ih =>
    intro t u v h
    cases ps with
    | nil =>
      simp only [set, Option.some_inj] at h
      subst h
      simp [lookupPath, omGet_omSet_self]
    | cons q qs =>
      rcases hg : omGet t p with _ | w
      · simp only [set, hg, Option.map_eq_some'] at h
        obtain ⟨sub, hsub, rfl⟩ := h
        simp [lookupPath, omGet_omSet_self, ih _ _ _ hsub]
      · cases w with
        | vNode sub =>
          simp only [set, hg, Option.map_eq_some'] at h
          obtain ⟨sub2, hsub2, rfl⟩ := h
          simp [lookupPath, omGet_omSet_self, ih _ _ _ hsub2]
        | vStr s => simp [set, hg] at h
        | vInt n => simp [set, hg] at h
        | vFloat q2 => simp [set, hg] at h

theorem set_isSome_eq_walkOkB (parts : List String) :
    ∀ (t : Node) (v : Value), parts ≠ [] →
      (set parts t v).isSome = walkOkB parts t := by
  induction parts with
  | nil => intro t v h; exact absurd rfl h
  | cons p ps ih =>
    intro t v _
    cases ps with
    | nil => simp [set, walkOkB]
    | cons q qs =>
      rcases hg : omGet t p with _ | w
      · simp only [set, hg, walkOkB]
        rw [set_nil_eq_nestChain _ _ (by simp)]
        simp [walkOkB_nil]
      · cases w with
        | vNode sub => simp [set, hg, walkOkB, ih sub v (by simp)]
        | vStr s => simp [set, hg, walkOkB]
        | vInt n => simp [set, hg, walkOkB]
        | vFloat q2 => simp [set, hg, walkOkB]

theorem omSet_omSet_self (t : Node) (k : String) (v w : Value) :
    omSet (omSet t k v) k w = omSet t k w := by
  induction t with
  | nil => simp [omSet]
  | cons hd rest ih =>
    obtain ⟨k1, v1⟩ := hd
    by_cases h1 : k1 = k <;> simp [omSet, h1, ih]

theorem set_set_same (parts : List String) :
    ∀ (t t1 : Node) (v1 v2 : Value), set parts t v1 = some t1 →
      set parts t1 v2 = set parts t v2 := by
  induction parts with
  | nil => intro t t1 v1 v2 h; simp [set] at h
  | cons p ps ih =>
    intro t t1 v1 v2 h
    cases ps with
    | nil =>
      simp only [set, Option.some_inj] at h
      subst h
      simp only [set, Option.some_inj, omSet_omSet_self]
    | cons q qs =>
      rcases hg : omGet t p with _ | w
      · simp only [set, hg, Option.map_eq_some'] at h
        obtain ⟨sub, hsub, rfl⟩ := h
        simp only [set, hg, omGet_omSet_self]
        rw [ih _ _ _ _ hsub]
        rcases h2 : set (q :: qs) [] v2 with _ | sub2
        · simp
        · simp [omSet_omSet_self]
      · cases w with
        | vNode sub =>
          simp only [set, hg, Option.map_eq_some'] at h
          obtain ⟨sub2, hsub2, rfl⟩ := h
          simp only [set, hg, omGet_omSet_self]
          rw [ih _ _ _ _ hsub2]
          rcases h2 : set (q :: qs) sub v2 with _ | sub3
          · simp
          · simp [omSet_omSet_self]
        | vStr s => simp [set, hg] at h
        | vInt n => simp [set, hg] at h
        | vFloat q2 => simp [set, hg] at h

/-! ## Lemmas for `add` and `addFloat` -/

theorem walkOkB_cons_node (p q : String) (qs : List String) (t sub : Node)
    (hg : omGet t p = some (.vNode sub))
    (h : walkOkB (p :: q :: qs) t = true) : walkOkB (q :: qs) sub = true := by
  simpa [walkOkB, hg] using h

theorem add_absent (parts : List String) :
    ∀ (t : Node) (d : Int), parts ≠ [] → walkOkB parts t = true →
      lookupPath t parts = none → add parts t d = set parts t (.vInt d) := by
  induction parts with
  | nil => intro t d h; exact absurd rfl h
  | cons p ps ih =>
    intro t d _ hw hl
    cases ps with
    | nil =>
      simp only [lookupPath] at hl
      simp [add, set, hl]
    | cons q qs =>
      rcases hg : omGet t p with _ | w
      · simp only [add, set, hg]
        rw [ih [] d (by simp) (walkOkB_nil _) (lookupPath_nil _)]
      · cases w with
        | vNode sub =>
          simp only [lookupPath, hg] at hl
          simp only [add, set, hg]
          rw [ih sub d (by simp) (walkOkB_cons_node p q qs t sub hg hw) hl]
        | vStr s => simp [walkOkB, hg] at hw
        | vInt n => simp [walkOkB, hg] at hw
        | vFloat q2 => simp [walkOkB, hg] at hw

theorem add_found_int (parts : List String) :
    ∀ (t : Node) (d v : Int), lookupPath t parts = some (.vInt v) →
      add parts t d = set parts t (.vInt (wrap64 (v + d))) := by
  induction parts with
  | nil => intro t d v h; simp [lookupPath] at h
  | cons p ps ih =>
    intro t d v hl
    cases ps with
    | nil =>
      simp only [lookupPath] at hl
      simp [add, set, hl]
    | cons q qs =>
      rcases hg : omGet t p with _ | w
      · simp [lookupPath, hg] at hl
      · cases w with
        | vNode sub =>
          simp only [lookupPath, hg] at hl
          simp only [add, set, hg]
          rw [ih sub d v hl]
        | vStr s => simp [lookupPath, hg] at hl
        | vInt n => simp [lookupPath, hg] at hl
        | vFloat q2 => simp [lookupPath, hg] at hl

theorem add_mismatch (parts : List String) :
    ∀ (t : Node) (d : Int) (w : Value), lookupPath t parts = some w →
      w.isInt = false → add parts t d = some t := by
  induction parts with
  | nil => intro t d w h; simp [lookupPath] at h
  | cons p ps ih =>
    intro t d w hl hk
    cases ps with
    | nil =>
      simp only [lookupPath] at hl
      cases w with
      | vInt n => simp [Value.isInt] at hk
      | vStr s => simp [add, hl]
      | vFloat q2 => simp [add, hl]
      | vNode sub => simp [add, hl]
    | cons q qs =>
      rcases hg : omGet t p with _ | w2
      · simp [lookupPath, hg] at hl
      · cases w2 with
        | vNode sub =>
          simp only [lookupPath, hg] at hl
          simp only [add, hg]
          rw [ih sub d w hl hk]
          simp [omSet_of_omGet_eq t p _ hg]
        | vStr s => simp [lookupPath, hg] at hl
        | vInt n => simp [lookupPath, hg] at hl
        | vFloat q2 => simp [lookupPath, hg] at hl

theorem addFloat_absent (parts : List String) :
    ∀ (t : Node) (d : Rat), parts ≠ [] → walkOkB parts t = true →
      lookupPath t parts = none → addFloat parts t d = set parts t (.vFloat d) := by
  induction parts with
  | nil => intro t d h; exact absurd rfl h
  | cons p ps ih =>
    intro t d _ hw hl
    cases ps with
    | nil =>
      simp only [lookupPath] at hl
      simp [addFloat, set, hl]
    | cons q qs =>
      rcases hg : omGet t p with _ | w
      · simp only [addFloat, set, hg]
        rw [ih [] d (by simp) (walkOkB_nil _) (lookupPath_nil _)]
      · cases w with
        | vNode sub =>
          simp only [lookupPath, hg] at hl
          simp only [addFloat, set, hg]
          rw [ih sub d (by simp) (walkOkB_cons_node p q qs t sub hg hw) hl]
        | vStr s => simp [walkOkB, hg] at hw
        | vInt n => simp [walkOkB, hg] at hw
        | vFloat q2 => simp [walkOkB, hg] at hw

theorem addFloat_found_float (parts : List String) :
    ∀ (t : Node) (d v : Rat), lookupPath t parts = some (.vFloat v) →
      addFloat parts t d = set parts t (.vFloat (v + d)) := by
  induction parts with
  | nil => intro t d v h; simp [lookupPath] at h
  | cons p ps ih =>
    intro t d v hl
    cases ps with
    | nil =>
      simp only [lookupPath] at hl
      simp [addFloat, set, hl]
    | cons q qs =>
      rcases hg : omGet t p with _ | w
      · simp [lookupPath, hg] at hl
      · cases w with
        | vNode sub =>
          simp only [lookupPath, hg] at hl
          simp only [addFloat, set, hg]
          rw [ih sub d v hl]
        | vStr s => simp [lookupPath, hg] at hl
        | vInt n => simp [lookupPath, hg] at hl
        | vFloat q2 => simp [lookupPath, hg] at hl

theorem addFloat_mismatch (parts : List String) :
    ∀ (t : Node) (d : Rat) (w : Value), lookupPath t parts = some w →
      w.isFloat = false → addFloat parts t d = some t := by
  induction parts with
  | nil => intro t d w h; simp [lookupPath] at h
  | cons p ps ih =>
    intro t d w hl hk
    cases ps with
    | nil =>
      simp only [lookupPath] at hl
      cases w with
      | vFloat q2 => simp [Value.isFloat] at hk
      | vStr s => simp [addFloat, hl]
      | vInt n => simp [addFloat, hl]
      | vNode sub => simp [addFloat, hl]
    | cons q qs =>
      rcases hg : omGet t p with _ | w2
      · simp [lookupPath, hg] at hl
      · cases w2 with
        | vNode sub =>
          simp only [lookupPath, hg] at hl
          simp only [addFloat, hg]
          rw [ih sub d w hl hk]
          simp [omSet_of_omGet_eq t p _ hg]
        | vStr s => simp [lookupPath, hg] at hl
        | vInt n => simp [lookupPath, hg] at hl
        | vFloat q2 => simp [lookupPath, hg] at hl

theorem set_exists_of_walkOkB (parts : List String) (t : Node) (v : Value)
    (hp : parts ≠ []) (hw : walkOkB parts t = true) :
    ∃ u, set parts t v = some u ∧ lookupPath u parts = some v := by
  have h := set_isSome_eq_walkOkB parts t v hp
  rw [hw] at h
  rcases hs : set parts t v with _ | u
  · rw [hs] at h; simp at h
  · exact ⟨u, rfl, set_lookupPath parts t u v hs⟩

/-! ## Lemmas for the canonical grouped shape (claim C1) -/

theorem mem_dedupFAux (x : String) :
    ∀ (l seen : List String), x ∈ dedupFAux seen l ↔ x ∈ l ∧ x ∉ seen := by
  intro l
  induction l with
  | nil => intro seen; simp [dedupFAux]
  | cons y ys ih =>
    intro seen
    by_cases hy : y ∈ seen
    · rw [dedupFAux, if_pos hy, ih]
      constructor
      · rintro ⟨h1, h2⟩; exact ⟨List.mem_cons_of_mem y h1, h2⟩
      · rintro ⟨h1, h2⟩
        rcases List.mem_cons.mp h1 with rfl | h1
        · exact absurd hy h2
        · exact ⟨h1, h2⟩
    · rw [dedupFAux, if_neg hy]
      by_cases hx : x = y
      · subst hx
        simp [ih, hy]
      · simp [ih, hx]

theorem mem_dedupF (x : String) (l : List String) : x ∈ dedupF l ↔ x ∈ l := by
  rw [dedupF, mem_dedupFAux]
  simp

theorem dedupFAux_append (x : String) :
    ∀ (l seen : List String),
      dedupFAux seen (l ++ [x]) =
        dedupFAux seen l ++ (if x ∈ seen ∨ x ∈ l then [] else [x]) := by
  intro l
  induction l with
  | nil =>
    intro seen
    by_cases hx : x ∈ seen <;> simp [dedupFAux, hx]
  | cons y ys ih =>
    intro seen
    by_cases hy : y ∈ seen
    · rw [List.cons_append, dedupFAux, if_pos hy, dedupFAux, if_pos hy, ih]
      by_cases hx : x ∈ seen
      · simp [hx]
      · by_cases hxy : x = y
        · subst hxy; exact absurd hy hx
        · simp [hx, hxy]
    · rw [List.cons_append, dedupFAux, if_neg hy, dedupFAux, if_neg hy, ih]
      by_cases hxy : x = y
      · subst hxy
        simp
      · by_cases hx : x ∈ seen
        · simp [hx, List.mem_cons, hxy]
        · simp only [List.mem_cons, hxy, false_or]
          by_cases hxs : x ∈ ys <;> simp [hx, hxs, hxy]

theorem dedupF_append_of_mem (x : String) (l : List String) (h : x ∈ l) :
    dedupF (l ++ [x]) = dedupF l := by
  rw [dedupF, dedupF, dedupFAux_append]
  simp [h]

theorem dedupF_append_of_not_mem (x : String) (l : List String) (h : x ∉ l) :
    dedupF (l ++ [x]) = dedupF l ++ [x] := by
  rw [dedupF, dedupF, dedupFAux_append]
  simp [h]

theorem nodup_dedupFAux : ∀ (l seen : List String), (dedupFAux seen l).Nodup := by
  intro l
  induction l with
  | nil => intro seen; simp [dedupFAux]
  | cons y ys ih =>
    intro seen
    by_cases hy : y ∈ seen
    · rw [dedupFAux, if_pos hy]; exact ih seen
    · rw [dedupFAux, if_neg hy]
      refine List.Nodup.cons ?_ (ih (y :: seen))
      intro hc
      exact ((mem_dedupFAux y ys (y :: seen)).mp hc).2 (List.mem_cons_self y seen)

theorem nodup_dedupF (l : List String) : (dedupF l).Nodup := nodup_dedupFAux l []

theorem splitOnChar_ne_nil (sep : Char) (cs : List Char) :
    splitOnChar sep cs ≠ [] := by
  cases cs with
  | nil => simp [splitOnChar]
  | cons c cs =>
    rw [splitOnChar]
    by_cases hc : c = sep
    · simp [hc]
    · rw [if_neg hc]
      rcases h : splitOnChar sep cs with _ | ⟨g, gs⟩ <;> simp

theorem normalizeKey_ne_nil (key : String) : normalizeKey key ≠ [] := by
  rw [normalizeKey]
  intro h
  exact splitOnChar_ne_nil '.' (key.data.map Char.toLower) (List.map_eq_nil_iff.mp h)

theorem isPre_cons_cons (p : String) (xs ys : List String) :
    isPre (p :: xs) (p :: ys) = isPre xs ys := by
  simp [isPre]

theorem isPre_single (p : String) (tl : List String) :
    isPre [p] (p :: tl) = true := by
  simp [isPre]

theorem heads_append_cons (g : List (List String × SVal)) (p : String)
    (tl : List String) (v : SVal) :
    heads (g ++ [(p :: tl, v)]) = heads g ++ [p] := by
  simp [heads, List.filterMap_append]

theorem mem_heads_iff (g : List (List String × SVal)) (p : String) :
    p ∈ heads g ↔ ∃ q ∈ g, ∃ tl, q.1 = p :: tl := by
  rw [heads, List.mem_filterMap]
  constructor
  · rintro ⟨q, hq, hh⟩
    cases hq1 : q.1 with
    | nil => rw [hq1] at hh; simp at hh
    | cons h tl =>
      rw [hq1] at hh
      simp only [List.head?, Option.some_inj] at hh
      exact ⟨q, hq, tl, by rw [hq1, hh]⟩
  · rintro ⟨q, hq, tl, hq1⟩
    exact ⟨q, hq, by rw [hq1]; rfl⟩

theorem subOps_append_cons (g : List (List String × SVal)) (p : String)
    (tl : List String) (v : SVal) (k : String) :
    subOps (g ++ [(p :: tl, v)]) k =
      subOps g k ++ (if p = k then [(tl, v)] else []) := by
  rw [subOps, List.filterMap_append]
  by_cases hp : p = k <;> simp [subOps, hp]

theorem subOps_nil_of_not_mem_heads (g : List (List String × SVal)) (p : String)
    (h : p ∉ heads g) : subOps g p = [] := by
  rw [subOps, List.filterMap_eq_nil_iff]
  intro q hq
  cases hq1 : q.1 with
  | nil => simp
  | cons h1 tl =>
    simp only [hq1]
    rw [if_neg]
    intro hc
    subst hc
    exact h ((mem_heads_iff g h1).mpr ⟨q, hq, tl, hq1⟩)

theorem mem_subOps (g : List (List String × SVal)) (p : String)
    (x : List String × SVal) (h : x ∈ subOps g p) : (p :: x.1, x.2) ∈ g := by
  rw [subOps, List.mem_filterMap] at h
  obtain ⟨q, hq, hx⟩ := h
  cases hq1 : q.1 with
  | nil => rw [hq1] at hx; simp at hx
  | cons h1 tl =>
    rw [hq1] at hx
    simp only at hx
    by_cases hh : h1 = p
    · subst hh
      rw [if_pos rfl, Option.some_inj] at hx
      have : q = (h1 :: x.1, x.2) := by
        obtain ⟨q1, q2⟩ := q
        simp only at hq1
        subst hq1
        rw [← hx]
      rw [← this]
      exact hq
    · rw [if_neg hh] at hx
      simp at hx

theorem segsOk_append_cons (g : List (List String × SVal)) (p : String)
    (tl : List String) (v : SVal) (h : segsOk g = true) :
    segsOk (g ++ [(p :: tl, v)]) = true := by
  rw [segsOk, List.all_append]
  rw [segsOk] at h
  rw [h]
  rfl

theorem nodeMatches_eq (g : List (List String × SVal)) (t : Node) :
    nodeMatches g t =
      (segsOk g && decide (t.map Prod.fst = dedupF (heads g)) && entriesMatch g t) := rfl

theorem nodeMatches_of_parts (g : List (List String × SVal)) (t : Node)
    (h1 : segsOk g = true) (h2 : t.map Prod.fst = dedupF (heads g))
    (h3 : entriesMatch g t = true) : nodeMatches g t = true := by
  rw [nodeMatches_eq, h1, h3, h2]
  simp

theorem nodeMatches_parts (g : List (List String × SVal)) (t : Node)
    (h : nodeMatches g t = true) :
    segsOk g = true ∧ t.map Prod.fst = dedupF (heads g) ∧ entriesMatch g t = true := by
  rw [nodeMatches_eq] at h
  simp only [Bool.and_eq_true, decide_eq_true_eq] at h
  exact ⟨h.1.1, h.1.2, h.2⟩

theorem svalEqValue_self (v : SVal) : svalEqValue v v.toValue = true := by
  cases v <;> simp [svalEqValue, SVal.toValue]

theorem valueMatches_toValue_single (v : SVal) :
    valueMatches [([], v)] v.toValue = true := by
  cases v <;> simp [valueMatches, SVal.toValue, scalarGroup, svalEqValue]

theorem scalarGroup_inv (g : List (List String × SVal)) (w : Value)
    (h : scalarGroup g w = true) : ∃ sv, g = [([], sv)] ∧ svalEqValue sv w = true := by
  rcases g with _ | ⟨⟨ps, sv⟩, rest⟩
  · simp [scalarGroup] at h
  · cases ps with
    | nil =>
      cases rest with
      | nil => exact ⟨sv, rfl, by simpa [scalarGroup] using h⟩
      | cons r rs => simp [scalarGroup] at h
    | cons a as => simp [scalarGroup] at h

theorem valueMatches_scalar_inv (g : List (List String × SVal)) (w : Value)
    (hw : w.isNode = false) (h : valueMatches g w = true) :
    ∃ sv, g = [([], sv)] ∧ svalEqValue sv w = true := by
  cases w with
  | vStr s => exact scalarGroup_inv g _ (by simpa [valueMatches] using h)
  | vInt n => exact scalarGroup_inv g _ (by simpa [valueMatches] using h)
  | vFloat q => exact scalarGroup_inv g _ (by simpa [valueMatches] using h)
  | vNode sub => simp [Value.isNode] at hw

theorem entriesMatch_congr (g1 g2 : List (List String × SVal)) :
    ∀ t : Node, (∀ k ∈ t.map Prod.fst, subOps g1 k = subOps g2 k) →
      entriesMatch g1 t = entriesMatch g2 t := by
  intro t
  induction t with
  | nil => intro _; rfl
  | cons hd rest ih =>
    intro h
    obtain ⟨k, v⟩ := hd
    rw [entriesMatch, entriesMatch, h k (by simp),
      ih fun k2 hk2 => h k2 (List.mem_cons_of_mem _ hk2)]

theorem entriesMatch_append_entry (g : List (List String × SVal)) (p : String)
    (w : Value) :
    ∀ t : Node, entriesMatch g t = true → valueMatches (subOps g p) w = true →
      entriesMatch g (t ++ [(p, w)]) = true := by
  intro t
  induction t with
  | nil =>
    intro _ hv
    simpa [entriesMatch] using hv
  | cons hd rest ih =>
    intro he hv
    obtain ⟨k, v⟩ := hd
    rw [entriesMatch] at he
    simp only [Bool.and_eq_true] at he
    obtain ⟨h1, h2⟩ := he
    rw [List.cons_append, entriesMatch, h1, ih h2 hv]
    rfl

theorem entriesMatch_extract (g : List (List String × SVal)) (p : String) :
    ∀ (t : Node) (w : Value), entriesMatch g t = true → omGet t p = some w →
      valueMatches (subOps g p) w = true := by
  intro t
  induction t with
  | nil => intro w _ hg; simp [omGet] at hg
  | cons hd rest ih =>
    intro w he hg
    obtain ⟨k, v⟩ := hd
    rw [entriesMatch] at he
    simp only [Bool.and_eq_true] at he
    obtain ⟨h1, h2⟩ := he
    by_cases hk : k = p
    · subst hk
      rw [omGet, if_pos rfl, Option.some_inj] at hg
      rw [← hg]
      exact h1
    · rw [omGet, if_neg hk] at hg
      exact ih w h2 hg

theorem entriesMatch_update (g g2 : List (List String × SVal)) (p : String)
    (w2 : Value) :
    ∀ t : Node, (t.map Prod.fst).Nodup → p ∈ t.map Prod.fst →
      (∀ k ∈ t.map Prod.fst, k ≠ p → subOps g2 k = subOps g k) →
      entriesMatch g t = true → valueMatches (subOps g2 p) w2 = true →
      entriesMatch g2 (omSet t p w2) = true := by
  intro t
  induction t with
  | nil => intro _ hp; simp at hp
  | cons hd rest ih =>
    intro hnd hp hsub he hv
    obtain ⟨k, v⟩ := hd
    rw [entriesMatch] at he
    simp only [Bool.and_eq_true] at he
    obtain ⟨h1, h2⟩ := he
    simp only [List.map_cons, List.nodup_cons] at hnd
    by_cases hk : k = p
    · subst hk
      rw [omSet, if_pos rfl, entriesMatch, hv]
      have hcong : entriesMatch g2 rest = entriesMatch g rest := by
        apply entriesMatch_congr
        intro k2 hk2
        exact hsub k2 (List.mem_cons_of_mem _ hk2) fun hc => hnd.1 (hc ▸ hk2)
      rw [hcong, h2]
      rfl
    · rw [omSet, if_neg hk, entriesMatch]
      have hp2 : p ∈ rest.map Prod.fst := by
        have h3 : p = k ∨ p ∈ rest.map Prod.fst := by
          simpa only [List.map_cons, List.mem_cons] using hp
        rcases h3 with hc | hc
        · exact absurd hc.symm hk
        · exact hc
      rw [hsub k (by simp) hk, h1,
        ih hnd.2 hp2 (fun k2 hk2 => hsub k2 (List.mem_cons_of_mem _ hk2)) h2 hv]
      rfl

theorem nestChain_matches :
    ∀ (ps : List String) (v : SVal), ps ≠ [] →
      valueMatches [(ps, v)] (.vNode (nestChain ps v.toValue)) = true := by
  intro ps
  induction ps with
  | nil => intro v h; exact absurd rfl h
  | cons q qs ih =>
    intro v _
    cases qs with
    | nil =>
      rw [nestChain, valueMatches]
      have h1 : segsOk [([q], v)] = true := by simp [segsOk]
      have h2 : ([(q, v.toValue)] : Node).map Prod.fst = dedupF (heads [([q], v)]) := by
        simp [heads, dedupF, dedupFAux]
      have h3 : entriesMatch [([q], v)] [(q, v.toValue)] = true := by
        rw [entriesMatch, entriesMatch]
        have : subOps [([q], v)] q = [([], v)] := by simp [subOps]
        rw [this, valueMatches_toValue_single]
        rfl
      rw [h1, h3, h2]
      simp
    | cons r rs =>
      have hn : nestChain (q :: r :: rs) v.toValue =
          [(q, Value.vNode (nestChain (r :: rs) v.toValue))] := rfl
      rw [hn, valueMatches]
      have h1 : segsOk [(q :: r :: rs, v)] = true := by simp [segsOk]
      have h2 : ([(q, Value.vNode (nestChain (r :: rs) v.toValue))] : Node).map Prod.fst =
          dedupF (heads [(q :: r :: rs, v)]) := by
        simp [heads, dedupF, dedupFAux]
      have h3 : entriesMatch [(q :: r :: rs, v)]
          [(q, Value.vNode (nestChain (r :: rs) v.toValue))] = true := by
        rw [entriesMatch, entriesMatch]
        have hsub : subOps [(q :: r :: rs, v)] q = [(r :: rs, v)] := by simp [subOps]
        rw [hsub, ih v (List.cons_ne_nil r rs)]
        rfl
      rw [h1, h3, h2]
      simp

/-- Appending one more Set op with a fresh, prefix-incomparable key keeps
the store in the canonical grouped shape. -/
theorem nodeMatches_snoc (k : List String) :
    ∀ (g : List (List String × SVal)) (t : Node) (v : SVal),
      nodeMatches g t = true → k ≠ [] →
      (∀ q ∈ g, isPre q.1 k = false ∧ isPre k q.1 = false) →
      ∃ u, set k t v.toValue = some u ∧ nodeMatches (g ++ [(k, v)]) u = true := by
  induction k with
  | nil => intro g t v _ hk _; exact absurd rfl hk
  | cons p ps ih =>
    intro g t v hm _ hfree
    obtain ⟨hseg, hmap, hent⟩ := nodeMatches_parts g t hm
    cases ps with
    | nil =>
      have hnp : p ∉ heads g := by
        intro hp
        obtain ⟨q, hq, tl, hq1⟩ := (mem_heads_iff g p).mp hp
        have hfq := (hfree q hq).2
        rw [hq1, isPre_single] at hfq
        exact Bool.true_eq_false.mp hfq
      have hnt : p ∉ t.map Prod.fst := by
        rw [hmap]
        intro hc
        exact hnp ((mem_dedupF p (heads g)).mp hc)
      have hg0 : omGet t p = none := (omGet_eq_none_iff t p).mpr hnt
      refine ⟨t ++ [(p, v.toValue)], ?_, ?_⟩
      · simp [set, omSet_of_omGet_none t p _ hg0]
      · apply nodeMatches_of_parts
        · exact segsOk_append_cons g p [] v hseg
        · rw [List.map_append, hmap, heads_append_cons g p [] v,
            dedupF_append_of_not_mem p _ hnp]
          rfl
        · have hcong : entriesMatch (g ++ [([p], v)]) t = entriesMatch g t := by
            apply entriesMatch_congr
            intro k2 hk2
            rw [subOps_append_cons,
              if_neg (show ¬p = k2 from fun hc => hnt (by rw [hc]; exact hk2)),
              List.append_nil]
          apply entriesMatch_append_entry
          · rw [hcong]; exact hent
          · rw [subOps_append_cons, if_pos rfl, subOps_nil_of_not_mem_heads g p hnp]
            simpa using valueMatches_toValue_single v
    | cons q qs =>
      by_cases hp : p ∈ heads g
      · have hpt : p ∈ t.map Prod.fst := by
          rw [hmap]; exact (mem_dedupF p _).mpr hp
        obtain ⟨w, hgw⟩ := omGet_isSome_of_mem t p hpt
        have hvm : valueMatches (subOps g p) w = true :=
          entriesMatch_extract g p t w hent hgw
        have hscalar : w.isNode = false →
            ∃ u, set (p :: q :: qs) t v.toValue = some u ∧
              nodeMatches (g ++ [(p :: q :: qs, v)]) u = true := by
          intro hwn
          obtain ⟨sv, hgp, _⟩ := valueMatches_scalar_inv _ _ hwn hvm
          have hmemg := mem_subOps g p ([], sv) (by rw [hgp]; simp)
          have hfq := (hfree ([p], sv) hmemg).1
          rw [isPre_single] at hfq
          exact absurd hfq (by simp)
        cases w with
        | vStr s => exact hscalar rfl
        | vInt n => exact hscalar rfl
        | vFloat q2 => exact hscalar rfl
        | vNode sub =>
          have hm2 : nodeMatches (subOps g p) sub = true := hvm
          have hfree2 : ∀ q2 ∈ subOps g p,
              isPre q2.1 (q :: qs) = false ∧ isPre (q :: qs) q2.1 = false := by
            intro q2 hq2
            have hf := hfree (p :: q2.1, q2.2) (mem_subOps g p q2 hq2)
            refine ⟨?_, ?_⟩
            · have h1 := hf.1
              rwa [isPre_cons_cons] at h1
            · have h2 := hf.2
              rwa [isPre_cons_cons] at h2
          obtain ⟨sub2, hsub2, hm3⟩ :=
            ih (subOps g p) sub v hm2 (List.cons_ne_nil q qs) hfree2
          refine ⟨omSet t p (.vNode sub2), ?_, ?_⟩
          · simp [set, hgw, hsub2]
          · apply nodeMatches_of_parts
            · exact segsOk_append_cons g p (q :: qs) v hseg
            · rw [omSet_map_fst_of_mem t p _ hpt, hmap, heads_append_cons,
                dedupF_append_of_mem p _ hp]
            · apply entriesMatch_update g (g ++ [(p :: q :: qs, v)]) p (.vNode sub2) t
              · rw [hmap]; exact nodup_dedupF _
              · exact hpt
              · intro k2 hk2 hk2p
                rw [subOps_append_cons, if_neg (Ne.symm hk2p), List.append_nil]
              · exact hent
              · rw [subOps_append_cons, if_pos rfl]
                exact hm3
      · have hnt : p ∉ t.map Prod.fst := by
          rw [hmap]
          intro hc
          exact hp ((mem_dedupF p _).mp hc)
        have hg0 : omGet t p = none := (omGet_eq_none_iff t p).mpr hnt
        have hchain := set_nil_eq_nestChain (q :: qs) v.toValue (List.cons_ne_nil q qs)
        refine ⟨t ++ [(p, .vNode (nestChain (q :: qs) v.toValue))], ?_, ?_⟩
        · simp [set, hg0, hchain, omSet_of_omGet_none t p _ hg0]
        · apply nodeMatches_of_parts
          · exact segsOk_append_cons g p (q :: qs) v hseg
          · rw [List.map_append, hmap, heads_append_cons,
              dedupF_append_of_not_mem p _ hp]
            rfl
          · have hcong : entriesMatch (g ++ [(p :: q :: qs, v)]) t = entriesMatch g t := by
              apply entriesMatch_congr
              intro k2 hk2
              rw [subOps_append_cons,
              if_neg (show ¬p = k2 from fun hc => hnt (by rw [hc]; exact hk2)),
              List.append_nil]
            apply entriesMatch_append_entry
            · rw [hcong]; exact hent
            · rw [subOps_append_cons, if_pos rfl, subOps_nil_of_not_mem_heads g p hp]
              simpa using nestChain_matches (q :: qs) v (List.cons_ne_nil q qs)

/-- Run a sequence of Set calls directly on a store. -/
def applySets (t : Node) : List (String × SVal) → Option Node
  | [] => some t
  | (k, v) :: rest => (set (normalizeKey k) t v.toValue).bind fun u => applySets u rest

theorem setOp_some (t : Node) (k : String) (v : SVal) :
    setOp ⟨some t⟩ k v =
      (set (normalizeKey k) t v.toValue).map fun u => (⟨some u⟩ : Ctx) := by
  cases v <;> rfl

theorem runSets_some (ops : List (String × SVal)) :
    ∀ t : Node, runSets ⟨some t⟩ ops =
      (applySets t ops).map fun u => (⟨some u⟩ : Ctx) := by
  induction ops with
  | nil => intro t; rfl
  | cons op rest ih =>
    intro t
    obtain ⟨k, v⟩ := op
    rw [runSets, applySets, setOp_some]
    rcases h : set (normalizeKey k) t v.toValue with _ | u
    · rfl
    · simp only [Option.map_some', Option.some_bind]
      exact ih u

theorem applySets_append (l1 l2 : List (String × SVal)) :
    ∀ t : Node, applySets t (l1 ++ l2) =
      (applySets t l1).bind fun u => applySets u l2 := by
  induction l1 with
  | nil => intro t; rfl
  | cons op rest ih =>
    intro t
    obtain ⟨k, v⟩ := op
    rw [List.cons_append, applySets, applySets]
    rcases h : set (normalizeKey k) t v.toValue with _ | u
    · rfl
    · simp only [Option.some_bind]
      exact ih u

/-- A prefix-incomparable sequence of Set calls succeeds and leaves the
store in the canonical grouped shape described by the spec. -/
theorem applySets_canonical (ops : List (String × SVal)) :
    ops.Pairwise (fun a b =>
      isPre (normalizeKey a.1) (normalizeKey b.1) = false ∧
      isPre (normalizeKey b.1) (normalizeKey a.1) = false) →
    ∃ t, applySets [] ops = some t ∧ nodeMatches (normOps ops) t = true := by
  induction ops using List.reverseRecOn with
  | nil => intro _; exact ⟨[], rfl, rfl⟩
  | append_singleton l x ihl =>
    intro hpf
    rw [List.pairwise_append] at hpf
    obtain ⟨hl, _, hrel⟩ := hpf
    obtain ⟨t, hts, htm⟩ := ihl hl
    obtain ⟨k2, v2⟩ := x
    have hfree : ∀ q ∈ normOps l,
        isPre q.1 (normalizeKey k2) = false ∧
        isPre (normalizeKey k2) q.1 = false := by
      intro q hq
      rw [normOps, List.mem_map] at hq
      obtain ⟨a, ha, rfl⟩ := hq
      exact hrel a ha (k2, v2) (by simp)
    obtain ⟨u, hu, hum⟩ := nodeMatches_snoc (normalizeKey k2) (normOps l) t v2 htm
      (normalizeKey_ne_nil k2) hfree
    refine ⟨u, ?_, ?_⟩
    · rw [applySets_append, hts]
      simp [applySets, hu]
    · have hn : normOps (l ++ [(k2, v2)]) = normOps l ++ [(normalizeKey k2, v2)] := by
        simp [normOps]
      rw [hn]
      exact hum

/-! ## Claim theorems -/

/-- C1 (amended: the normalized keys must be pairwise distinct AND
segment-wise prefix-incomparable — no key's normalized path may be a
prefix of another's, which pairwise distinctness alone does not give):
for every such sequence of Set{String,Int,Float} calls on an initialized
carrier, MarshalJSON renders a store that contains exactly those
normalized keys mapped to their last-set values, with keys at each level
appearing in first-insertion order (the canonical grouped shape
`nodeMatches`). -/
theorem distinct_sets_shape (ops : List (String × SVal))
    (hpf : ops.Pairwise fun a b =>
      isPre (normalizeKey a.1) (normalizeKey b.1) = false ∧
      isPre (normalizeKey b.1) (normalizeKey a.1) = false) :
    ∃ t, runSets (Init ⟨none⟩) ops = some ⟨some t⟩ ∧
      MarshalJSON ⟨some t⟩ = string t ∧
      nodeMatches (normOps ops) t = true := by
  obtain ⟨t, h1, h2⟩ := applySets_canonical ops hpf
  refine ⟨t, ?_, rfl, h2⟩
  have hinit : Init ⟨none⟩ = (⟨some []⟩ : Ctx) := rfl
  rw [hinit, runSets_some, h1]
  rfl

/-- Counterexample to C1 as stated: the keys a.b and a have distinct
normalized paths, yet after Set("a.b", 1) then Set("a", 2) the store holds
only the key a — the key a.b is absent from the output (its lookup fails
and the exactly-those-keys shape predicate rejects the store), because the
second Set overwrote the intermediate Node. -/
theorem distinct_sets_shape_cex :
    normOps [("a.b", SVal.i 1), ("a", SVal.i 2)] =
      [(["a", "b"], SVal.i 1), (["a"], SVal.i 2)] ∧
    (["a", "b"] : List String) ≠ ["a"] ∧
    runSets (Init ⟨none⟩) [("a.b", SVal.i 1), ("a", SVal.i 2)] =
      some ⟨some [("a", .vInt 2)]⟩ ∧
    lookupPath [("a", .vInt 2)] ["a", "b"] = none ∧
    nodeMatches (normOps [("a.b", SVal.i 1), ("a", SVal.i 2)])
      [("a", .vInt 2)] = false :=
  ⟨rfl, by decide, rfl, rfl, rfl⟩

/-- Witness for C1 on the repository's own test scenario. -/
theorem distinct_sets_shape_witness :
    ∃ t, runSets (Init ⟨none⟩)
        [("foo.bar", SVal.i 1), ("foo.baz", SVal.i 2), ("qux", SVal.s "x")] =
        some ⟨some t⟩ ∧
      MarshalJSON ⟨some t⟩ = string t ∧
      nodeMatches (normOps
        [("foo.bar", SVal.i 1), ("foo.baz", SVal.i 2), ("qux", SVal.s "x")]) t = true :=
  distinct_sets_shape
    [("foo.bar", SVal.i 1), ("foo.baz", SVal.i 2), ("qux", SVal.s "x")] (by decide)

/-- C2: a dotted key path a.b.c is stored as nested Nodes — key a holds a
Node whose key b holds a Node whose key c holds the scalar — with each
intermediate Node created lazily and exactly once per distinct segment;
Set("a.b.c", x) then Set("a.b.d", y) yields a single a-Node containing a
single b-Node holding both leaves, and for x = 1, y = 2 it serializes to
{"a":{"b":{"c":1,"d":2}}}. -/
theorem dotted_path_nesting :
    (∀ (parts : List String) (v : Value), parts ≠ [] →
      set parts [] v = some (nestChain parts v)) ∧
    (∀ x y : SVal,
      runSets (Init ⟨none⟩) [("a.b.c", x), ("a.b.d", y)] =
        some ⟨some [("a", .vNode [("b", .vNode [("c", x.toValue), ("d", y.toValue)])])]⟩) ∧
    MarshalJSON ⟨some [("a", .vNode [("b", .vNode [("c", .vInt 1), ("d", .vInt 2)])])]⟩ =
      "\x7b\"a\":\x7b\"b\":\x7b\"c\":1,\"d\":2\x7d\x7d\x7d" := by
  refine ⟨set_nil_eq_nestChain, fun x y => ?_, rfl⟩
  cases x <;> cases y <;> rfl

/-- Witness for C2 at a concrete path and value. -/
theorem dotted_path_nesting_witness :
    set ["x", "y"] [] (.vInt 7) = some [("x", .vNode [("y", .vInt 7)])] :=
  dotted_path_nesting.1 ["x", "y"] (.vInt 7) (by decide)

/-- C3: for every key whose intermediate path segments hold Nodes or are
absent, AddInt (resp. AddFloat64) at an absent leaf stores the delta as
the initial value; at a leaf holding a value of the matching numeric kind
it replaces the leaf with existing + delta (Go 64-bit addition for int,
float64 addition modelled by Rat); at a leaf holding a value of any other
kind it leaves the whole store unchanged and discards the delta, raising
no error. -/
theorem add_leaf_semantics (parts : List String) (t : Node)
    (hp : parts ≠ []) (hw : walkOkB parts t = true) :
    (∀ d : Int,
      (lookupPath t parts = none →
        add parts t d = set parts t (.vInt d) ∧
        ∃ u, add parts t d = some u ∧ lookupPath u parts = some (.vInt d)) ∧
      (∀ v : Int, lookupPath t parts = some (.vInt v) →
        add parts t d = set parts t (.vInt (wrap64 (v + d))) ∧
        ∃ u, add parts t d = some u ∧
          lookupPath u parts = some (.vInt (wrap64 (v + d)))) ∧
      (∀ w : Value, lookupPath t parts = some w → w.isInt = false →
        add parts t d = some t)) ∧
    (∀ d : Rat,
      (lookupPath t parts = none →
        addFloat parts t d = set parts t (.vFloat d) ∧
        ∃ u, addFloat parts t d = some u ∧
          lookupPath u parts = some (.vFloat d)) ∧
      (∀ v : Rat, lookupPath t parts = some (.vFloat v) →
        addFloat parts t d = set parts t (.vFloat (v + d)) ∧
        ∃ u, addFloat parts t d = some u ∧
          lookupPath u parts = some (.vFloat (v + d))) ∧
      (∀ w : Value, lookupPath t parts = some w → w.isFloat = false →
        addFloat parts t d = some t)) := by
  constructor
  · intro d
    refine ⟨fun hl => ?_, fun v hl => ?_, fun w hl hk => add_mismatch parts t d w hl hk⟩
    · have he := add_absent parts t d hp hw hl
      obtain ⟨u, hu, hlu⟩ := set_exists_of_walkOkB parts t (.vInt d) hp hw
      exact ⟨he, u, he.trans hu, hlu⟩
    · have he := add_found_int parts t d v hl
      obtain ⟨u, hu, hlu⟩ := set_exists_of_walkOkB parts t (.vInt (wrap64 (v + d))) hp hw
      exact ⟨he, u, he.trans hu, hlu⟩
  · intro d
    refine ⟨fun hl => ?_, fun v hl => ?_,
      fun w hl hk => addFloat_mismatch parts t d w hl hk⟩
    · have he := addFloat_absent parts t d hp hw hl
      obtain ⟨u, hu, hlu⟩ := set_exists_of_walkOkB parts t (.vFloat d) hp hw
      exact ⟨he, u, he.trans hu, hlu⟩
    · have he := addFloat_found_float parts t d v hl
      obtain ⟨u, hu, hlu⟩ := set_exists_of_walkOkB parts t (.vFloat (v + d)) hp hw
      exact ⟨he, u, he.trans hu, hlu⟩

/-- Witness for C3: AddInt on an absent leaf stores the delta; AddFloat64
onto a stored string leaves the store unchanged. -/
theorem add_leaf_semantics_witness :
    (∃ u, add ["a"] [] 5 = some u ∧ lookupPath u ["a"] = some (.vInt 5)) ∧
    addFloat ["k"] [("k", .vStr "txt")] 2 = some [("k", .vStr "txt")] :=
  ⟨(((add_leaf_semantics ["a"] [] (by decide) (by rfl)).1 5).1 (by rfl)).2,
    ((add_leaf_semantics ["k"] [("k", .vStr "txt")] (by decide) (by rfl)).2 2).2.2
      (.vStr "txt") (by rfl) (by rfl)⟩

/-- C4: two Set calls on the same normalized key leave the store
reflecting only the second value: re-running the same path on the updated
store gives exactly what a single Set of the second value gives, the final
segment is overwritten unconditionally, and the stored value at the path
is the second one. -/
theorem set_overwrites (parts : List String) (t t1 : Node) (v1 v2 : Value)
    (h : set parts t v1 = some t1) :
    set parts t1 v2 = set parts t v2 ∧
    ∃ t2, set parts t1 v2 = some t2 ∧ lookupPath t2 parts = some v2 := by
  have hp : parts ≠ [] := by
    rintro rfl
    simp [set] at h
  have hw : walkOkB parts t = true := by
    have hs := set_isSome_eq_walkOkB parts t v1 hp
    rw [h] at hs
    simpa using hs.symm
  have heq := set_set_same parts t t1 v1 v2 h
  obtain ⟨t2, h2, hl2⟩ := set_exists_of_walkOkB parts t v2 hp hw
  exact ⟨heq, t2, heq.trans h2, hl2⟩

/-- Witness for C4: overwriting a scalar, and overwriting a Node by a
scalar at the same position. -/
theorem set_overwrites_witness :
    (set ["a"] [("a", .vInt 1)] (.vInt 2) = set ["a"] [] (.vInt 2) ∧
      ∃ t2, set ["a"] [("a", .vInt 1)] (.vInt 2) = some t2 ∧
        lookupPath t2 ["a"] = some (.vInt 2)) ∧
    (∃ t2, set ["a"] [("a", .vNode [("b", .vInt 1)])] (.vStr "z") = some t2 ∧
      lookupPath t2 ["a"] = some (.vStr "z")) :=
  ⟨set_overwrites ["a"] [] [("a", .vInt 1)] (.vInt 1) (.vInt 2) (by rfl),
    (set_overwrites ["a"] [] [("a", .vNode [("b", .vInt 1)])]
      (.vNode [("b", .vInt 1)]) (.vStr "z") (by rfl)).2⟩

/-- C5: keys are case-insensitive for storage and merge — every key is
lower-cased before storage/lookup, two keys with the same lower-casing
normalize identically and the second Set overwrites the first, and
Set("Foo.Bar", 1) then Set("foo.bar", 2) yields the single path
foo.bar holding 2, not two sibling keys. -/
theorem keys_case_insensitive :
    (∀ k1 k2 : String, k1.data.map Char.toLower = k2.data.map Char.toLower →
      normalizeKey k1 = normalizeKey k2) ∧
    (∀ (k1 k2 : String) (t t1 : Node) (v1 v2 : Value),
      k1.data.map Char.toLower = k2.data.map Char.toLower →
      set (normalizeKey k1) t v1 = some t1 →
      set (normalizeKey k2) t1 v2 = set (normalizeKey k2) t v2) ∧
    runSets (Init ⟨none⟩) [("Foo.Bar", .i 1), ("foo.bar", .i 2)] =
      some ⟨some [("foo", .vNode [("bar", .vInt 2)])]⟩ := by
  have hnorm : ∀ k1 k2 : String,
      k1.data.map Char.toLower = k2.data.map Char.toLower →
      normalizeKey k1 = normalizeKey k2 := by
    intro k1 k2 h
    simp [normalizeKey, h]
  refine ⟨hnorm, fun k1 k2 t t1 v1 v2 h hset => ?_, rfl⟩
  rw [← hnorm k1 k2 h]
  exact set_set_same _ t t1 v1 v2 hset

/-- Witness for C5 at the spec's example keys. -/
theorem keys_case_insensitive_witness :
    normalizeKey "Foo.Bar" = normalizeKey "foo.bar" ∧
    set (normalizeKey "foo.bar") [("foo", .vNode [("bar", .vInt 1)])] (.vInt 2) =
      set (normalizeKey "foo.bar") [] (.vInt 2) :=
  ⟨keys_case_insensitive.1 "Foo.Bar" "foo.bar" (by decide),
    keys_case_insensitive.2.1 "Foo.Bar" "foo.bar" [] [("foo", .vNode [("bar", .vInt 1)])]
      (.vInt 1) (.vInt 2) (by decide) (by rfl)⟩

/-- C6: Init is idempotent — a carrier that already has an attached store
is returned unchanged, so values set before a second Init are still
present; a carrier with no store gets a fresh empty store. -/
theorem init_idempotent (c : Ctx) :
    (∀ t, c.store = some t → Init c = c ∧ MarshalJSON (Init c) = MarshalJSON c) ∧
    (c.store = none → Init c = ⟨some []⟩) := by
  obtain ⟨st⟩ := c
  cases st with
  | none =>
    refine ⟨fun t ht => by simp at ht, fun _ => rfl⟩
  | some t =>
    refine ⟨fun t2 ht => ⟨rfl, rfl⟩, fun h => by simp at h⟩

/-- Witness for C6: a populated carrier survives a second Init, and an
uninitialized carrier gets an empty store. -/
theorem init_idempotent_witness :
    (Init ⟨some [("k", .vInt 3)]⟩ = ⟨some [("k", .vInt 3)]⟩ ∧
      MarshalJSON (Init ⟨some [("k", .vInt 3)]⟩) = MarshalJSON ⟨some [("k", .vInt 3)]⟩) ∧
    Init ⟨none⟩ = ⟨some []⟩ :=
  ⟨(init_idempotent ⟨some [("k", .vInt 3)]⟩).1 [("k", .vInt 3)] rfl,
    (init_idempotent ⟨none⟩).2 rfl⟩

/-- C7: on a carrier with no attached store, every Set and Add operation
is a silent no-op that never faults, and MarshalJSON returns the empty
string. -/
theorem accessors_noop_without_store (c : Ctx) (k sv : String) (n : Int) (q : Rat)
    (h : c.store = none) :
    SetString c k sv = some c ∧ SetInt c k n = some c ∧
    SetFloat64 c k q = some c ∧ AddInt c k n = some c ∧
    AddFloat64 c k q = some c ∧ MarshalJSON c = "" := by
  obtain ⟨st⟩ := c
  cases h
  exact ⟨rfl, rfl, rfl, rfl, rfl, rfl⟩

/-- Witness for C7 on the never-initialized carrier. -/
theorem accessors_noop_without_store_witness :
    SetString ⟨none⟩ "a.b" "x" = some ⟨none⟩ ∧ SetInt ⟨none⟩ "a.b" 1 = some ⟨none⟩ ∧
    SetFloat64 ⟨none⟩ "a.b" 2 = some ⟨none⟩ ∧ AddInt ⟨none⟩ "a.b" 1 = some ⟨none⟩ ∧
    AddFloat64 ⟨none⟩ "a.b" 2 = some ⟨none⟩ ∧ MarshalJSON ⟨none⟩ = "" :=
  accessors_noop_without_store ⟨none⟩ "a.b" "x" 1 2 rfl

/-- C8: when the walk of a Set path meets an intermediate segment holding
a scalar, the operation does not succeed: the Go type assertion panics,
modelled here by the operation returning none instead of overwriting the
scalar; in particular Set("a", 1) then Set("a.b", 2) faults. -/
theorem set_scalar_conflict :
    (∀ (parts : List String) (t : Node) (v : Value),
      walkOkB parts t = false → set parts t v = none) ∧
    runSets (Init ⟨none⟩) [("a", .i 1), ("a.b", .i 2)] = none := by
  refine ⟨fun parts t v h => ?_, rfl⟩
  cases parts with
  | nil => simp [walkOkB] at h
  | cons p ps =>
    have hs := set_isSome_eq_walkOkB (p :: ps) t v (by simp)
    rw [h] at hs
    rcases hx : set (p :: ps) t v with _ | u
    · rfl
    · rw [hx] at hs
      simp at hs

/-- Witness for C8: descending through the scalar stored at "a" faults. -/
theorem set_scalar_conflict_witness :
    set ["a", "b"] [("a", .vInt 1)] (.vInt 2) = none :=
  set_scalar_conflict.1 ["a", "b"] [("a", .vInt 1)] (.vInt 2) (by rfl)

/-- The serialization step as a state transformer: `canonical.string` only
reads the ordered map (`json.Marshal` performs no writes), so the carrier
component is returned unchanged. -/
def stepMarshal (c : Ctx) : Ctx × String := (c, MarshalJSON c)

/-- C10: MarshalJSON is read-only and deterministic — the serialization
step leaves the carrier (and so the attached store) unchanged, a second
call with no intervening mutation returns the same string, and the output
depends only on the store contents. -/
theorem marshal_read_only (c c2 : Ctx) :
    (stepMarshal c).1 = c ∧
    (stepMarshal ((stepMarshal c).1)).2 = (stepMarshal c).2 ∧
    (c.store = c2.store → MarshalJSON c = MarshalJSON c2) := by
  refine ⟨rfl, rfl, fun h => ?_⟩
  obtain ⟨s1⟩ := c
  obtain ⟨s2⟩ := c2
  simp only at h
  rw [MarshalJSON, MarshalJSON, h]

/-- Witness for C10 on two carriers holding equal stores. -/
theorem marshal_read_only_witness :
    MarshalJSON ⟨some [("a", .vInt 1)]⟩ = MarshalJSON ⟨some [("a", .vInt 1)]⟩ :=
  (marshal_read_only ⟨some [("a", .vInt 1)]⟩ ⟨some [("a", .vInt 1)]⟩).2.2 rfl

end Clog
